import Mathlib

/-!
Verification development for the common-crawl batching/worker pipeline.

Shallow embedding of the Python sources:
  - `src/python/batcher.py`   (`process_index`, the acceptance filter, batch flush)
  - `src/python/rabbitmq.py`  (`RabbitMQChannel.basic_publish` retry loop)
  - `src/python/worker.py`    (`Worker._is_valid_doc`, `Worker.process_batch`)
  - `src/python/ObjectStore.py` (`ObjectStore.save` key construction)

External collaborators (HTTP downloads, the WARC iterator, trafilatura,
the tokenizer, the broker, the object store backend, wall-clock time) are
modelled as explicit inputs/oracles; the control flow of the embedded
functions follows the Python line by line.
-/

/-- Exceptions that the embedded Python code can raise. -/
inductive PyError
  | jsonDecodeError   -- json.loads on a malformed document
  | keyError          -- mapping lookup of a missing key
  | decodeError       -- malformed archive-container (WARC) framing
  | fetchError        -- HTTP / gzip failure in download_and_unzip
deriving DecidableEq, Repr

/-- Metadata mapping of one index line: the two keys the batcher filter reads.
`none` models absence of the key in the JSON mapping. -/
structure Metadata where
  languages : Option (List String)
  status : Option String
deriving DecidableEq, Repr

/-- One record appended to `found_urls` in `process_index`:
`{"surt_url": values[0], "timestamp": values[1], "metadata": metadata}`. -/
structure CdxRecord where
  surt_url : String
  timestamp : String
  metadata : Metadata
deriving DecidableEq, Repr

/-- Parse outcome of `json.loads("".join(values[2:]))` for one non-empty line. -/
inductive LineParse
  | malformedJson
  | parsed (surt timestamp : String) (md : Metadata)
deriving DecidableEq, Repr

/-- One line of the decoded index-metadata range (`data.split("\n")`). -/
inductive RawLine
  | empty
  | content (p : LineParse)
deriving DecidableEq, Repr

/-- The batcher's acceptance condition, with Python's left-to-right
short-circuit evaluation:
`"languages" in metadata and "eng" in metadata["languages"] and metadata["status"] == "200"`.
The `metadata["status"]` lookup is unguarded, so it raises `KeyError`
when it is reached and the key is absent. -/
def evalFilter (md : Metadata) : Except PyError Bool :=
  match md.languages with
  | none => .ok false
  | some langs =>
    if "eng" ∈ langs then
      match md.status with
      | none => .error .keyError
      | some s => .ok (s == "200")
    else .ok false

/-- State threaded through `process_index`: the active `found_urls` list,
the batches published so far (in publish order), and the three counters. -/
structure BatchState where
  foundUrls : List CdxRecord
  published : List (List CdxRecord)
  docsSeen : Nat
  docsFiltered : Nat
  docsSent : Nat
deriving DecidableEq, Repr

def initBatchState : BatchState := ⟨[], [], 0, 0, 0⟩

/-- Model of `publish_batch(channel, found_urls)` plus `batcher_docs_sent.inc(len(found_urls))`:
records the publish and bumps the sent counter. It does not clear
`found_urls`; the in-loop caller clears it separately, the flush path does not. -/
def publishBatch (st : BatchState) : BatchState :=
  { st with published := st.published ++ [st.foundUrls],
            docsSent := st.docsSent + st.foundUrls.length }

/-- Body of the inner `for line in data.split("\n")` loop of `process_index`. -/
def processLine (batchSize : Nat) (st : BatchState) (l : RawLine) : Except PyError BatchState :=
  match l with
  | .empty => .ok st
  | .content p =>
    let st := { st with docsSeen := st.docsSeen + 1 }
    match p with
    | .malformedJson => .error .jsonDecodeError
    | .parsed surt ts md => do
      let accept ← evalFilter md
      let st :=
        if accept then
          { st with docsFiltered := st.docsFiltered + 1,
                    foundUrls := st.foundUrls ++ [⟨surt, ts, md⟩] }
        else st
      if batchSize ≤ st.foundUrls.length then
        pure { publishBatch st with foundUrls := [] }
      else
        pure st

/-- Tail of `process_index` after the index is exhausted, exactly as written:
`if found_urls: publish...` followed by `if len(found_urls) > 0: publish...`,
with `found_urls` never cleared in between. -/
def finalFlush (st : BatchState) : BatchState :=
  let st1 := if st.foundUrls ≠ [] then publishBatch st else st
  if 0 < st1.foundUrls.length then publishBatch st1 else st1

/-- Model of `process_index(index, channel, downloader, batch_size)`.
Each chunk's already-downloaded, decoded and newline-split data is given as a
`List RawLine`; the outer fold is the `for cdx_chunk in lines` loop. -/
def processIndex (chunks : List (List RawLine)) (batchSize : Nat) :
    Except PyError BatchState := do
  let st ← chunks.foldlM (fun st chunk => chunk.foldlM (processLine batchSize) st) initBatchState
  pure (finalFlush st)

/-- The records of a line sequence that pass the acceptance filter, in order. -/
def acceptedOf (lines : List RawLine) : List CdxRecord :=
  lines.filterMap (fun l =>
    match l with
    | .content (.parsed surt ts md) =>
      match evalFilter md with
      | .ok true => some ⟨surt, ts, md⟩
      | _ => none
    | _ => none)

/-! Embedding of `RabbitMQChannel.basic_publish` (src/python/rabbitmq.py). -/

def MAX_RETRIES : Nat := 3
def RETRY_DELAY : Nat := 5

/-- Outcome of one `self.channel.basic_publish(...)` call, supplied by an
oracle indexed by the number of publish calls made so far. -/
inductive PubOutcome
  | success
  | authError        -- AuthenticationError / ProbableAuthenticationError / ProbableAccessDeniedError
  | transportError   -- AMQPConnectionError, ChannelClosed, NackError, ... (the long second except clause)
  | otherError       -- the defensive `except Exception`
deriving DecidableEq, Repr

/-- Observable trace of a `basic_publish` call: how many publish attempts,
`time.sleep(RETRY_DELAY)` calls and `self._connect()` calls happened. -/
structure PubTrace where
  publishCalls : Nat
  sleeps : Nat
  reconnects : Nat
deriving DecidableEq, Repr

/-- How `basic_publish` terminates. -/
inductive PubResult
  | returned (tr : PubTrace)             -- the `return` after a successful publish
  | authRaised (tr : PubTrace)           -- re-raise of the auth-class exception
  | runtimeErrorRaised (tr : PubTrace)   -- `raise RuntimeError("Failed to publish after 3 retries")`
  | fellOffLoop (tr : PubTrace)          -- while-condition false: implicit `return None`
deriving DecidableEq, Repr

/-- One iteration of `while attempt < MAX_RETRIES`, faithful to the source's
indentation: the `raise RuntimeError(...)` on the last line of the method
body sits INSIDE the while body, after the try/except chain, so every
handled exception falls through to it.  `fuel` only bounds the recursion;
with `fuel > MAX_RETRIES` it never runs out. -/
def basicPublishLoop (oracle : Nat → PubOutcome) (fuel attempt : Nat) (tr : PubTrace) : PubResult :=
  match fuel with
  | 0 => .fellOffLoop tr
  | fuel' + 1 =>
    if attempt < MAX_RETRIES then
      match oracle tr.publishCalls with
      | .success => .returned { tr with publishCalls := tr.publishCalls + 1 }
      | .authError => .authRaised { tr with publishCalls := tr.publishCalls + 1 }
      | .transportError =>
        -- attempt += 1; time.sleep(RETRY_DELAY); self._connect(); then the raise
        .runtimeErrorRaised ⟨tr.publishCalls + 1, tr.sleeps + 1, tr.reconnects + 1⟩
      | .otherError =>
        .runtimeErrorRaised ⟨tr.publishCalls + 1, tr.sleeps + 1, tr.reconnects + 1⟩
    else
      have _ := fuel' + attempt
      .fellOffLoop tr

/-- Model of `RabbitMQChannel.basic_publish(exchange, routing_key, body)`: start with
`attempt = 0` and an empty trace. -/
def basic_publish (oracle : Nat → PubOutcome) : PubResult :=
  basicPublishLoop oracle (MAX_RETRIES + 1) 0 ⟨0, 0, 0⟩

/-! Embedding of `Worker` (src/python/worker.py). -/

abbrev Bytes := List Nat

/-- One record yielded by `WARCIterator`: only `rec_type == "response"` matters. -/
inductive WRec
  | response (body : Bytes)
  | other
deriving DecidableEq, Repr

/-- Result of a successful `download_and_unzip` for one item: the byte count
(for the bytes_downloaded counter), the WARC records the iterator yields, and
an optional exception raised by the iterator after those records
(malformed container framing mid-stream). -/
structure ItemData where
  dataLen : Nat
  records : List WRec
  trailingError : Option PyError
deriving DecidableEq, Repr

/-- Oracle outcome of processing one item's download. -/
inductive ItemOutcome
  | fetchFail (e : PyError)    -- download_and_unzip raises
  | fetchOk (d : ItemData)
deriving DecidableEq, Repr

/-- One element of the received batch (`item` in `process_batch`). -/
structure Item where
  surt_url : String
  timestamp : String
  metadata : Metadata
deriving DecidableEq, Repr

/-- The document assembled by the worker and passed to `store.save`. -/
structure Doc where
  url : String
  timestamp : String
  content : String
  tokens : List Nat
  metadata : Metadata
deriving DecidableEq, Repr

/-- Worker-side state: documents saved so far (in save order), the counters,
and the number of `ch.basic_ack` calls. -/
structure WorkerState where
  saved : List Doc
  docsReceived : Nat
  docsProcessed : Nat
  docsFiltered : Nat
  batchesConsumed : Nat
  bytesDownloaded : Nat
  acks : Nat
deriving DecidableEq, Repr

/-- Model of `Worker._is_valid_doc(text)`: `None` is rejected, otherwise
`MIN_DOC_LENGTH <= len(text) <= MAX_DOC_LENGTH`. -/
def isValidDoc (text : Option String) : Bool :=
  match text with
  | none => false
  | some t => decide (500 ≤ t.length) && decide (t.length ≤ 1000000)

/-- Body of `for record in WARCIterator(...)` for one record:
extract text, length-check, tokenize, save.  `extract` models
`trafilatura.extract` (None on no usable text), `encode` the tokenizer. -/
def processRecord (extract : Bytes → Option String) (encode : String → List Nat)
    (item : Item) (st : WorkerState) (rec : WRec) : WorkerState :=
  match rec with
  | .other => st
  | .response body =>
    match extract body with
    | none =>
      -- _is_valid_doc(None) is False: docs_filtered.inc(); continue
      { st with docsFiltered := st.docsFiltered + 1 }
    | some text =>
      if isValidDoc (some text) then
        { st with
            saved := st.saved ++ [⟨item.surt_url, item.timestamp, text, encode text, item.metadata⟩],
            docsProcessed := st.docsProcessed + 1 }
      else
        { st with docsFiltered := st.docsFiltered + 1 }

/-- Body of `for item in batch` with its enclosing try/except: any exception
(fetch failure, or a WARC decode error after some records) is caught and the
loop moves on; the records yielded before a trailing error have already been
processed. -/
def processItem (extract : Bytes → Option String) (encode : String → List Nat)
    (st : WorkerState) (pair : Item × ItemOutcome) : WorkerState :=
  match pair.2 with
  | .fetchFail _ => st
  | .fetchOk d =>
    let st := { st with bytesDownloaded := st.bytesDownloaded + d.dataLen }
    d.records.foldl (processRecord extract encode pair.1) st

/-- Model of `Worker.process_batch(ch, method, _properties, body)`: count the received
items, process every item under per-item exception isolation, bump the batch
counter, and acknowledge the delivery exactly once at the end. -/
def processBatch (extract : Bytes → Option String) (encode : String → List Nat)
    (batch : List (Item × ItemOutcome)) : WorkerState :=
  let st0 : WorkerState := ⟨[], batch.length, 0, 0, 0, 0, 0⟩
  let st := batch.foldl (processItem extract encode) st0
  { st with batchesConsumed := st.batchesConsumed + 1, acks := st.acks + 1 }

/-- The document (if any) one WARC record turns into for a given item. -/
def extractDoc (extract : Bytes → Option String) (encode : String → List Nat)
    (item : Item) (rec : WRec) : Option Doc :=
  match rec with
  | .other => none
  | .response body =>
    match extract body with
    | none => none
    | some text =>
      if isValidDoc (some text) then
        some ⟨item.surt_url, item.timestamp, text, encode text, item.metadata⟩
      else none

/-- The documents one item contributes on its own, independent of the rest of
the batch: nothing on a fetch failure, else the valid extracted documents of
its response records (in order). -/
def itemSaves (extract : Bytes → Option String) (encode : String → List Nat)
    (pair : Item × ItemOutcome) : List Doc :=
  match pair.2 with
  | .fetchFail _ => []
  | .fetchOk d => d.records.filterMap (extractDoc extract encode pair.1)

/-! Embedding of `ObjectStore.save` (src/python/ObjectStore.py). -/

/-- Decimal rendering of a nonnegative integer, modelling Python's
`f"{ticks}"`: most-significant digit first, and `0` renders as `"0"`. -/
def decimalRepr (n : Nat) : String :=
  match n with
  | 0 => "0"
  | _ => String.mk (((Nat.digits 10 n).reverse).map Nat.digitChar)

/-- The wall clock observed by one `save` call:
`datetime.datetime.utcnow().date().isoformat()` and `int(time.time() * 1000)`. -/
structure UtcNow where
  dateIso : String
  epochMillis : Nat
deriving DecidableEq, Repr

/-- The object key `ObjectStore.save` writes to:
`key = f"{today}/{ticks}.jsonl"`.  Each `put_object` call creates/overwrites
exactly the object at this key. -/
def saveKey (now : UtcNow) : String :=
  now.dateIso ++ "/" ++ decimalRepr now.epochMillis ++ ".jsonl"

/-- Date component of an object key: everything before the first slash. -/
def keyDate (k : String) : String :=
  String.mk (k.data.takeWhile (fun c => c ≠ '/'))

/-! Concrete collaborators and items used by witness instantiations. -/

/-- A text extractor that never finds usable text. -/
def exNone : Bytes → Option String := fun _ => none

/-- A tokenizer stub returning no tokens. -/
def enNil : String → List Nat := fun _ => []

/-- A healthy item whose fetch succeeds with no records. -/
def itemA : Item × ItemOutcome := (⟨"a", "ta", ⟨none, none⟩⟩, .fetchOk ⟨3, [], none⟩)

/-- An item whose archive fetch raises a decode error. -/
def itemBad : Item × ItemOutcome := (⟨"b", "tb", ⟨none, none⟩⟩, .fetchFail .decodeError)

/-! Helper lemmas about the batcher. -/

theorem acceptedOf_nil : acceptedOf [] = [] := rfl

theorem acceptedOf_cons (l : RawLine) (ls : List RawLine) :
    acceptedOf (l :: ls) = acceptedOf [l] ++ acceptedOf ls := by
  cases l with
  | empty => simp [acceptedOf, List.filterMap_cons]
  | content p =>
    cases p with
    | malformedJson => simp [acceptedOf, List.filterMap_cons]
    | parsed u t md =>
      rcases hf : evalFilter md with e | b
      · simp [acceptedOf, List.filterMap_cons, hf]
      · cases b <;> simp [acceptedOf, List.filterMap_cons, hf]

theorem acceptedOf_append (l1 l2 : List RawLine) :
    acceptedOf (l1 ++ l2) = acceptedOf l1 ++ acceptedOf l2 := by
  simp [acceptedOf, List.filterMap_append]

/-- One `processLine` step preserves the invariant: the records published so
far followed by the active batch are exactly the accepted records so far. -/
theorem processLine_ok_inv {bs : Nat} {st st' : BatchState} {l : RawLine}
    (h : processLine bs st l = .ok st') :
    st'.published.flatten ++ st'.foundUrls =
      st.published.flatten ++ st.foundUrls ++ acceptedOf [l] := by
  cases l with
  | empty =>
    simp only [processLine, Except.ok.injEq] at h
    subst h
    simp [acceptedOf]
  | content p =>
    cases p with
    | malformedJson => simp [processLine] at h
    | parsed u t md =>
      rcases hf : evalFilter md with e | b
      · simp [processLine, hf, Bind.bind, Except.bind] at h
      · simp only [processLine, hf, Bind.bind, Except.bind] at h
        cases b with
        | false =>
          simp only [Bool.false_eq_true, if_false] at h
          split at h <;>
            simp only [pure, Except.pure, Except.ok.injEq] at h <;>
            subst h <;>
            simp [publishBatch, acceptedOf, List.filterMap_cons, hf, List.flatten_append]
        | true =>
          simp only [if_true] at h
          split at h <;>
            simp only [pure, Except.pure, Except.ok.injEq] at h <;>
            subst h <;>
            simp [publishBatch, acceptedOf, List.filterMap_cons, hf, List.flatten_append]

/-- Folding `processLine` over a list of lines preserves the invariant. -/
theorem processLines_ok_inv {bs : Nat} (lines : List RawLine) :
    ∀ st st', lines.foldlM (processLine bs) st = .ok st' →
      st'.published.flatten ++ st'.foundUrls =
        st.published.flatten ++ st.foundUrls ++ acceptedOf lines := by
  induction lines with
  | nil =>
    intro st st' h
    simp only [List.foldlM_nil, pure, Except.pure, Except.ok.injEq] at h
    subst h
    simp [acceptedOf]
  | cons l ls ih =>
    intro st st' h
    rw [List.foldlM_cons] at h
    rcases hm : processLine bs st l with e | st1
    · rw [hm] at h; simp [Bind.bind, Except.bind] at h
    · rw [hm] at h
      simp only [Bind.bind, Except.bind] at h
      have h1 := processLine_ok_inv hm
      have h2 := ih st1 st' h
      rw [h2, h1, acceptedOf_cons l ls]
      simp [List.append_assoc]

/-- The chunk-level fold of `process_index` preserves the invariant. -/
theorem processChunks_ok_inv {bs : Nat} (chunks : List (List RawLine)) :
    ∀ st st',
      chunks.foldlM (fun st chunk => chunk.foldlM (processLine bs) st) st = .ok st' →
      st'.published.flatten ++ st'.foundUrls =
        st.published.flatten ++ st.foundUrls ++ acceptedOf chunks.flatten := by
  induction chunks with
  | nil =>
    intro st st' h
    simp only [List.foldlM_nil, pure, Except.pure, Except.ok.injEq] at h
    subst h
    simp [acceptedOf]
  | cons c cs ih =>
    intro st st' h
    rw [List.foldlM_cons] at h
    rcases hm : c.foldlM (processLine bs) st with e | st1
    · rw [hm] at h; simp [Bind.bind, Except.bind] at h
    · rw [hm] at h
      simp only [Bind.bind, Except.bind] at h
      have h1 := processLines_ok_inv c st st1 hm
      have h2 := ih st1 st' h
      rw [h2, h1, List.flatten_cons, acceptedOf_append]
      simp [List.append_assoc]

/-- The batches on record after the end-of-index flush: nothing new when the
remainder is empty, otherwise the remainder twice (the double flush). -/
theorem finalFlush_published (st : BatchState) :
    (finalFlush st).published =
      if st.foundUrls = [] then st.published
      else st.published ++ [st.foundUrls, st.foundUrls] := by
  rcases hfu : st.foundUrls with _ | ⟨x, xs⟩ <;>
    simp [finalFlush, publishBatch, hfu]

/-- Membership in the batches published after the end-of-index flush is
membership in the batches published during the loop or in the remainder. -/
theorem finalFlush_mem (st : BatchState) (r : CdxRecord) :
    r ∈ (finalFlush st).published.flatten ↔
      r ∈ st.published.flatten ++ st.foundUrls := by
  rw [finalFlush_published st]
  by_cases hfu : st.foundUrls = []
  · simp [hfu]
  · rw [if_neg hfu]
    have hfl : (st.published ++ [st.foundUrls, st.foundUrls]).flatten =
        st.published.flatten ++ (st.foundUrls ++ st.foundUrls) := by
      simp [List.flatten_append]
    rw [hfl]
    simp only [List.mem_append]
    tauto

/-- The acceptance condition succeeds with `True` exactly on status `"200"`
together with an `"eng"` language tag. -/
theorem evalFilter_eq_ok_true (md : Metadata) :
    evalFilter md = .ok true ↔
      md.status = some "200" ∧ ∃ langs, md.languages = some langs ∧ "eng" ∈ langs := by
  rcases md with ⟨ls, stt⟩
  cases ls with
  | none => simp [evalFilter]
  | some langs =>
    by_cases he : "eng" ∈ langs
    · cases stt with
      | none => simp [evalFilter, he]
      | some s =>
        simp only [evalFilter, he, if_true, Except.ok.injEq, beq_iff_eq]
        constructor
        · rintro rfl; exact ⟨rfl, langs, rfl, he⟩
        · rintro ⟨hs, _⟩; injection hs
    · simp only [evalFilter, he, if_false]
      constructor
      · intro h; simp at h
      · rintro ⟨_, langs', hl, he'⟩
        injection hl with hl
        subst hl
        exact absurd he' he

/-- A parsed line's record appears among the accepted records iff its
metadata passes the filter. -/
theorem mem_acceptedOf {lines : List RawLine} {u t : String} {md : Metadata}
    (hmem : RawLine.content (.parsed u t md) ∈ lines) :
    (⟨u, t, md⟩ : CdxRecord) ∈ acceptedOf lines ↔ evalFilter md = .ok true := by
  constructor
  · intro h
    rcases List.mem_filterMap.mp h with ⟨a, _, hfa⟩
    cases a with
    | empty => simp at hfa
    | content p =>
      cases p with
      | malformedJson => simp at hfa
      | parsed u' t' md' =>
        rcases hf : evalFilter md' with e | b
        · simp [hf] at hfa
        · cases b with
          | false => simp [hf] at hfa
          | true =>
            simp [hf, CdxRecord.mk.injEq] at hfa
            obtain ⟨-, -, h3⟩ := hfa
            subst h3
            exact hf
  · intro h
    exact List.mem_filterMap.mpr ⟨RawLine.content (.parsed u t md), hmem, by simp [h]⟩

/-- If some line of some chunk has malformed trailing JSON, the whole fold
over that chunk raises. -/
theorem processLines_error_of_malformed {bs : Nat} {lines : List RawLine}
    (h : RawLine.content .malformedJson ∈ lines) :
    ∀ st, ∃ e, lines.foldlM (processLine bs) st = .error e := by
  induction lines with
  | nil => cases h
  | cons l ls ih =>
    intro st
    rcases List.mem_cons.mp h with rfl | hmem
    · exact ⟨.jsonDecodeError, by rw [List.foldlM_cons]; rfl⟩
    · rcases hm : processLine bs st l with e | st1
      · exact ⟨e, by rw [List.foldlM_cons, hm]; rfl⟩
      · rcases ih hmem st1 with ⟨e, he⟩
        exact ⟨e, by rw [List.foldlM_cons, hm]; simpa [Bind.bind, Except.bind] using he⟩

/-- A malformed JSON line anywhere in the chunk list makes the chunk-level
fold raise. -/
theorem processChunks_error_of_malformed {bs : Nat} :
    ∀ chunks : List (List RawLine),
      (∃ chunk ∈ chunks, RawLine.content .malformedJson ∈ chunk) →
      ∀ st, ∃ e,
        chunks.foldlM (fun st chunk => chunk.foldlM (processLine bs) st) st = .error e := by
  intro chunks
  induction chunks with
  | nil => rintro ⟨c, hc, -⟩; cases hc
  | cons c cs ih =>
    rintro ⟨c0, hc0, hl0⟩ st
    rcases List.mem_cons.mp hc0 with rfl | hmem
    · obtain ⟨e, he⟩ := processLines_error_of_malformed hl0 st
      exact ⟨e, by rw [List.foldlM_cons, he]; rfl⟩
    · rcases hm : c.foldlM (processLine bs) st with e | st1
      · exact ⟨e, by rw [List.foldlM_cons, hm]; rfl⟩
      · obtain ⟨e, he⟩ := ih ⟨c0, hmem, hl0⟩ st1
        exact ⟨e, by rw [List.foldlM_cons, hm]; simpa [Bind.bind, Except.bind] using he⟩

/-- A malformed JSON line anywhere in the index makes the whole
`process_index` run raise (there is no try/except around `json.loads`). -/
theorem processIndex_error_of_malformed {chunks : List (List RawLine)} {bs : Nat}
    (h : ∃ chunk ∈ chunks, RawLine.content .malformedJson ∈ chunk) :
    ∃ e, processIndex chunks bs = .error e := by
  obtain ⟨e, he⟩ := @processChunks_error_of_malformed bs chunks h initBatchState
  exact ⟨e, by simp [processIndex, he, Bind.bind, Except.bind]⟩

/-- A successful `process_index` run decomposes into a successful fold and the
final flush of its result. -/
theorem processIndex_ok_iff {chunks : List (List RawLine)} {bs : Nat} {st : BatchState} :
    processIndex chunks bs = .ok st ↔
      ∃ st0, chunks.foldlM (fun st chunk => chunk.foldlM (processLine bs) st) initBatchState
               = .ok st0 ∧ st = finalFlush st0 := by
  constructor
  · intro h
    unfold processIndex at h
    rcases hm : chunks.foldlM (fun st chunk => chunk.foldlM (processLine bs) st) initBatchState
      with e | st0
    · rw [hm] at h; simp [Bind.bind, Except.bind] at h
    · rw [hm] at h
      simp only [Bind.bind, Except.bind, pure, Except.pure, Except.ok.injEq] at h
      exact ⟨st0, hm, h.symm⟩
  · rintro ⟨st0, hm, rfl⟩
    unfold processIndex
    rw [hm]
    rfl

/-! Helper lemmas about the worker. -/

/-- One record step appends exactly the record's document (if any) and leaves
the acknowledgment count alone. -/
theorem processRecord_saved_acks (ex : Bytes → Option String) (en : String → List Nat)
    (item : Item) (st : WorkerState) (rec : WRec) :
    (processRecord ex en item st rec).saved = st.saved ++ (extractDoc ex en item rec).toList ∧
      (processRecord ex en item st rec).acks = st.acks := by
  cases rec with
  | other => simp [processRecord, extractDoc]
  | response body =>
    rcases hx : ex body with _ | text
    · simp [processRecord, extractDoc, hx]
    · by_cases hv : isValidDoc (some text) = true
      · simp [processRecord, extractDoc, hx, hv]
      · simp only [Bool.not_eq_true] at hv
        simp [processRecord, extractDoc, hx, hv]

/-- Folding the record loop accumulates exactly the item's documents. -/
theorem foldl_processRecord_saved_acks (ex : Bytes → Option String) (en : String → List Nat)
    (item : Item) (records : List WRec) :
    ∀ st : WorkerState,
      ((records.foldl (processRecord ex en item) st).saved =
          st.saved ++ records.filterMap (extractDoc ex en item)) ∧
        (records.foldl (processRecord ex en item) st).acks = st.acks := by
  induction records with
  | nil => intro st; simp
  | cons rec recs ih =>
    intro st
    rw [List.foldl_cons]
    obtain ⟨ihs, iha⟩ := ih (processRecord ex en item st rec)
    obtain ⟨hs, ha⟩ := processRecord_saved_acks ex en item st rec
    refine ⟨?_, by rw [iha, ha]⟩
    rw [ihs, hs, List.filterMap_cons]
    rcases extractDoc ex en item rec with _ | d <;> simp

/-- One item contributes exactly `itemSaves` and never acknowledges. -/
theorem processItem_saved_acks (ex : Bytes → Option String) (en : String → List Nat)
    (st : WorkerState) (pair : Item × ItemOutcome) :
    (processItem ex en st pair).saved = st.saved ++ itemSaves ex en pair ∧
      (processItem ex en st pair).acks = st.acks := by
  rcases pair with ⟨item, oc⟩
  cases oc with
  | fetchFail e => simp [processItem, itemSaves]
  | fetchOk d =>
    obtain ⟨hs, ha⟩ := foldl_processRecord_saved_acks ex en item d.records
      { st with bytesDownloaded := st.bytesDownloaded + d.dataLen }
    exact ⟨by simpa [processItem, itemSaves] using hs,
           by simpa [processItem, itemSaves] using ha⟩

/-- Folding the item loop concatenates the items' individual contributions. -/
theorem foldl_processItem_saved_acks (ex : Bytes → Option String) (en : String → List Nat)
    (batch : List (Item × ItemOutcome)) :
    ∀ st : WorkerState,
      ((batch.foldl (processItem ex en) st).saved =
          st.saved ++ (batch.map (itemSaves ex en)).flatten) ∧
        (batch.foldl (processItem ex en) st).acks = st.acks := by
  induction batch with
  | nil => intro st; simp
  | cons pair rest ih =>
    intro st
    rw [List.foldl_cons]
    obtain ⟨ihs, iha⟩ := ih (processItem ex en st pair)
    obtain ⟨hs, ha⟩ := processItem_saved_acks ex en st pair
    refine ⟨?_, by rw [iha, ha]⟩
    rw [ihs, hs]
    simp [List.append_assoc]

/-! Helper lemmas about the object-store key. -/

/-- The function `Nat.digitChar` is injective below base 10. -/
theorem digitChar_inj_lt10 : ∀ a < 10, ∀ b < 10, Nat.digitChar a = Nat.digitChar b → a = b := by
  decide

/-- Mapping `Nat.digitChar` over lists of decimal digits is injective. -/
theorem map_digitChar_inj :
    ∀ l1 l2 : List Nat, (∀ x ∈ l1, x < 10) → (∀ x ∈ l2, x < 10) →
      l1.map Nat.digitChar = l2.map Nat.digitChar → l1 = l2 := by
  intro l1
  induction l1 with
  | nil => intro l2 _ _ h; cases l2 <;> simp_all
  | cons a as ih =>
    intro l2 h1 h2 h
    cases l2 with
    | nil => simp at h
    | cons b bs =>
      simp only [List.map_cons, List.cons.injEq] at h
      have hab : a = b :=
        digitChar_inj_lt10 a (h1 a (by simp)) b (h2 b (by simp)) h.1
      have hrest : as = bs :=
        ih bs (fun x hx => h1 x (by simp [hx])) (fun x hx => h2 x (by simp [hx])) h.2
      rw [hab, hrest]

/-- The decimal rendering used for the key's millisecond component is
injective: distinct tick values render to distinct strings. -/
theorem decimalRepr_injective : Function.Injective decimalRepr := by
  have digs : ∀ n : Nat, ∀ x ∈ (Nat.digits 10 n).reverse, x < 10 := by
    intro n x hx
    exact Nat.digits_lt_base (by norm_num) (List.mem_reverse.mp hx)
  have aux0 : ∀ k : Nat, decimalRepr (k + 1) ≠ decimalRepr 0 := by
    intro k hk
    have h' : ((Nat.digits 10 (k + 1)).reverse.map Nat.digitChar) = ['0'] := by
      have := congrArg String.data hk
      simpa [decimalRepr] using this
    rcases hds : (Nat.digits 10 (k + 1)).reverse with _ | ⟨x, xs⟩
    · rw [hds] at h'; simp at h'
    · rw [hds] at h'
      simp only [List.map_cons, List.cons.injEq] at h'
      obtain ⟨hx, hxs⟩ := h'
      have hxs' : xs = [] := by
        cases xs with
        | nil => rfl
        | cons y ys => simp at hxs
      have hx10 : x < 10 := digs (k + 1) x (by rw [hds]; simp)
      have hx0 : x = 0 := digitChar_inj_lt10 x hx10 0 (by norm_num) (by rw [hx]; rfl)
      have hd : Nat.digits 10 (k + 1) = [0] := by
        have hrr : Nat.digits 10 (k + 1) = ((Nat.digits 10 (k + 1)).reverse).reverse := by
          simp
        rw [hrr, hds, hxs', hx0]
        rfl
      have hod := Nat.ofDigits_digits 10 (k + 1)
      rw [hd] at hod
      simp [Nat.ofDigits] at hod
  have key : ∀ m n : Nat,
      ((Nat.digits 10 m).reverse.map Nat.digitChar) =
        ((Nat.digits 10 n).reverse.map Nat.digitChar) → m = n := by
    intro m n h
    have hrev := map_digitChar_inj _ _ (digs m) (digs n) h
    have hdig : Nat.digits 10 m = Nat.digits 10 n := by
      have := congrArg List.reverse hrev
      simpa using this
    exact Nat.digits.injective 10 hdig
  intro m n h
  match m, n with
  | 0, 0 => rfl
  | 0, k + 1 => exact absurd h.symm (aux0 k)
  | k + 1, 0 => exact absurd h (aux0 k)
  | j + 1, k + 1 =>
    have h' : ((Nat.digits 10 (j + 1)).reverse.map Nat.digitChar) =
        ((Nat.digits 10 (k + 1)).reverse.map Nat.digitChar) := by
      have := congrArg String.data h
      simpa [decimalRepr] using this
    exact key _ _ h'

/-- A `takeWhile` over an append stops exactly at the first element failing the test. -/
theorem takeWhile_append_stop (p : Char → Bool) (l1 l2 : List Char) (c : Char)
    (h1 : ∀ x ∈ l1, p x) (h2 : p c = false) :
    (l1 ++ c :: l2).takeWhile p = l1 := by
  induction l1 with
  | nil => simp [List.takeWhile, h2]
  | cons a as ih =>
    simp only [List.cons_append, List.takeWhile]
    rw [h1 a (by simp)]
    simp only [List.cons.injEq, true_and]
    exact ih (fun x hx => h1 x (by simp [hx]))

/-- The character data of a save key splits into its three components. -/
theorem saveKey_data (now : UtcNow) :
    (saveKey now).data =
      now.dateIso.data ++ '/' :: ((decimalRepr now.epochMillis).data ++ ".jsonl".data) := by
  simp [saveKey, String.data_append]

/-- The date component of a save key is the UTC date observed by the call,
provided the date string itself contains no slash. -/
theorem keyDate_saveKey (now : UtcNow) (hd : '/' ∉ now.dateIso.data) :
    keyDate (saveKey now) = now.dateIso := by
  unfold keyDate
  rw [saveKey_data]
  rw [takeWhile_append_stop _ now.dateIso.data _ '/'
      (by intro x hx; simp only [decide_eq_true_eq]; intro hxeq; exact hd (hxeq ▸ hx))
      (by simp)]

/-- Keys produced at distinct millisecond ticks are distinct. -/
theorem saveKey_injective_ticks (d : String) (t1 t2 : Nat) (hne : t1 ≠ t2) :
    saveKey ⟨d, t1⟩ ≠ saveKey ⟨d, t2⟩ := by
  intro h
  have hdata := congrArg String.data h
  rw [saveKey_data, saveKey_data] at hdata
  simp only at hdata
  have h1 := List.append_cancel_left hdata
  have h2 : (decimalRepr t1).data ++ ".jsonl".data = (decimalRepr t2).data ++ ".jsonl".data := by
    injection h1
  have h3 : (decimalRepr t1).data = (decimalRepr t2).data := List.append_cancel_right h2
  exact hne (decimalRepr_injective (congrArg String.mk h3 : decimalRepr t1 = decimalRepr t2))

/-- Length of a replicate-built string, without evaluating the list. -/
theorem length_mkReplicate (n : Nat) (c : Char) :
    (String.mk (List.replicate n c)).length = n := by
  show (List.replicate n c).length = n
  exact List.length_replicate n c

/-- The whole batch contributes the concatenation of its items' documents and
is acknowledged exactly once. -/
theorem processBatch_saved_acks (ex : Bytes → Option String) (en : String → List Nat)
    (batch : List (Item × ItemOutcome)) :
    (processBatch ex en batch).saved = (batch.map (itemSaves ex en)).flatten ∧
      (processBatch ex en batch).acks = 1 := by
  obtain ⟨hs, ha⟩ :=
    foldl_processItem_saved_acks ex en batch ⟨[], batch.length, 0, 0, 0, 0, 0⟩
  constructor
  · show (batch.foldl (processItem ex en) ⟨[], batch.length, 0, 0, 0, 0, 0⟩).saved = _
    rw [hs]
    rfl
  · show (batch.foldl (processItem ex en) ⟨[], batch.length, 0, 0, 0, 0, 0⟩).acks + 1 = 1
    rw [ha]

/-! Claim theorems. -/

/-- C1: the claim says each assembled batch is published at most once and the
final partial flush happens exactly once.  Evaluating `process_index` on an
index with a single qualifying row and batch size 50 shows the code publishes
the same one-record remainder batch twice: the `if found_urls:` block and the
`if len(found_urls) > 0:` block both fire because `found_urls` is never
cleared between them. -/
theorem batcher_final_flush_double_publish :
    (processIndex [[RawLine.content (.parsed "u" "t" ⟨some ["eng"], some "200"⟩)]] 50).map
        BatchState.published =
      .ok [[⟨"u", "t", ⟨some ["eng"], some "200"⟩⟩],
           [⟨"u", "t", ⟨some ["eng"], some "200"⟩⟩]] := by
  rfl

/-- C5: the claim says every published batch except possibly the last has
length exactly BATCH_SIZE.  Evaluating `process_index` on an index with two
qualifying rows and batch size 50 yields two published batches of lengths
[2, 2]: the first published batch has length 2 ≠ 50 and is not the last,
because the end-of-index remainder is flushed twice. -/
theorem batcher_batch_size_bound_violated :
    (processIndex [[RawLine.content (.parsed "u1" "t1" ⟨some ["eng"], some "200"⟩),
                    RawLine.content (.parsed "u2" "t2" ⟨some ["eng"], some "200"⟩)]] 50).map
        (fun st => st.published.map List.length) =
      .ok [2, 2] := by
  rfl

/-- C2: the claim says a transport failure on every attempt leads to exactly 3
publish attempts with a sleep and reconnect between consecutive ones, and the
exhaustion error only after the third.  Evaluating `basic_publish` against a
channel that raises a transport-class error on every call shows the code
performs exactly one publish attempt, one sleep and one reconnect, and then
raises the RuntimeError: the `raise` statement sits inside the while body,
directly after the try/except, even though MAX_RETRIES is 3. -/
theorem basic_publish_single_attempt_on_transport_error :
    basic_publish (fun _ => .transportError) = .runtimeErrorRaised ⟨1, 1, 1⟩ ∧
      MAX_RETRIES = 3 := by
  exact ⟨rfl, rfl⟩

/-- C8: when the first publish attempt fails with an authentication /
authorization-class error, `basic_publish` re-raises immediately: exactly one
publish attempt, zero sleeps, zero reconnects. -/
theorem basic_publish_auth_error_immediate (oracle : Nat → PubOutcome)
    (h : oracle 0 = .authError) :
    basic_publish oracle = .authRaised ⟨1, 0, 0⟩ := by
  simp [basic_publish, basicPublishLoop, MAX_RETRIES, h]

/-- Witness for C8 at a channel that always raises an auth error. -/
theorem basic_publish_auth_error_immediate_witness :
    basic_publish (fun _ => .authError) = .authRaised ⟨1, 0, 0⟩ :=
  basic_publish_auth_error_immediate (fun _ => .authError) rfl

/-- C7: for every delivered batch, per-item failures are caught and skipped —
the saved documents are exactly the concatenation of each item's own
contribution, unaffected by other items' failures — and the batch is
acknowledged exactly once after all items are attempted. -/
theorem worker_per_item_isolation_and_single_ack (ex : Bytes → Option String)
    (en : String → List Nat) (batch : List (Item × ItemOutcome)) :
    (processBatch ex en batch).acks = 1 ∧
      (processBatch ex en batch).saved = (batch.map (itemSaves ex en)).flatten :=
  ⟨(processBatch_saved_acks ex en batch).2, (processBatch_saved_acks ex en batch).1⟩

/-- C6: in any successful batcher run, a parsed index line's record is
included in some published batch iff its metadata's status equals "200" and
its languages contain "eng" (strict equality and membership). -/
theorem batcher_filter_correctness
    (chunks : List (List RawLine)) (bs : Nat) (st : BatchState)
    (hrun : processIndex chunks bs = .ok st)
    (u t : String) (md : Metadata)
    (hline : RawLine.content (.parsed u t md) ∈ chunks.flatten) :
    (⟨u, t, md⟩ : CdxRecord) ∈ st.published.flatten ↔
      (md.status = some "200" ∧ ∃ langs, md.languages = some langs ∧ "eng" ∈ langs) := by
  obtain ⟨st0, hfold, rfl⟩ := processIndex_ok_iff.mp hrun
  have hinv := processChunks_ok_inv chunks initBatchState st0 hfold
  simp only [initBatchState, List.flatten_nil, List.nil_append] at hinv
  rw [finalFlush_mem, hinv, mem_acceptedOf hline, evalFilter_eq_ok_true]

/-- Witness for C6 on a concrete one-line run with a qualifying record. -/
theorem batcher_filter_correctness_witness :
    ((⟨"u", "t", ⟨some ["eng"], some "200"⟩⟩ : CdxRecord) ∈
        (BatchState.published ⟨[⟨"u", "t", ⟨some ["eng"], some "200"⟩⟩],
          [[⟨"u", "t", ⟨some ["eng"], some "200"⟩⟩],
           [⟨"u", "t", ⟨some ["eng"], some "200"⟩⟩]], 1, 1, 2⟩).flatten ↔
      ((⟨some ["eng"], some "200"⟩ : Metadata).status = some "200" ∧
        ∃ langs, (⟨some ["eng"], some "200"⟩ : Metadata).languages = some langs ∧
          "eng" ∈ langs)) :=
  batcher_filter_correctness
    [[RawLine.content (.parsed "u" "t" ⟨some ["eng"], some "200"⟩)]] 50
    ⟨[⟨"u", "t", ⟨some ["eng"], some "200"⟩⟩],
     [[⟨"u", "t", ⟨some ["eng"], some "200"⟩⟩],
      [⟨"u", "t", ⟨some ["eng"], some "200"⟩⟩]], 1, 1, 2⟩
    rfl "u" "t" ⟨some ["eng"], some "200"⟩ (by simp)

/-- C10: the batcher's acceptance condition short-circuits left to right —
when the languages key is absent or lacks "eng" the result is False without
the status key ever being read (the result does not depend on the status
field at all, so status may be absent), and a KeyError can arise only when
languages is present, contains "eng", and status is absent. -/
theorem filter_short_circuit_status_unread :
    (∀ (ls : Option (List String)) (st1 st2 : Option String),
        (ls = none ∨ ∀ langs, ls = some langs → "eng" ∉ langs) →
        evalFilter ⟨ls, st1⟩ = .ok false ∧ evalFilter ⟨ls, st1⟩ = evalFilter ⟨ls, st2⟩) ∧
    (∀ (md : Metadata) (e : PyError), evalFilter md = .error e →
        e = .keyError ∧ md.status = none ∧
          ∃ langs, md.languages = some langs ∧ "eng" ∈ langs) := by
  constructor
  · rintro ls st1 st2 (rfl | hno)
    · exact ⟨rfl, rfl⟩
    · cases ls with
      | none => exact ⟨rfl, rfl⟩
      | some langs =>
        have he := hno langs rfl
        simp [evalFilter, he]
  · intro md e h
    rcases md with ⟨ls, stt⟩
    cases ls with
    | none => simp [evalFilter] at h
    | some langs =>
      by_cases he : "eng" ∈ langs
      · cases stt with
        | none =>
          simp only [evalFilter, he, if_true] at h
          injection h with h
          exact ⟨h.symm, rfl, langs, rfl, he⟩
        | some s => simp [evalFilter, he] at h
      · simp [evalFilter, he] at h

/-- Witness for C10: a record lacking "eng" is excluded no matter what status
holds, and the only error case is an "eng" record with no status key. -/
theorem filter_short_circuit_status_unread_witness :
    (evalFilter ⟨some ["fra"], none⟩ = .ok false ∧
      evalFilter ⟨some ["fra"], none⟩ = evalFilter ⟨some ["fra"], some "200"⟩) ∧
    (PyError.keyError = PyError.keyError ∧
      (⟨some ["eng"], none⟩ : Metadata).status = none ∧
      ∃ langs, (⟨some ["eng"], none⟩ : Metadata).languages = some langs ∧ "eng" ∈ langs) :=
  ⟨filter_short_circuit_status_unread.1 (some ["fra"]) none (some "200")
      (Or.inr (by rintro langs hl; injection hl with hl; subst hl; decide)),
   filter_short_circuit_status_unread.2 ⟨some ["eng"], none⟩ .keyError rfl⟩

/-- C3 counterexample: the claim says a line with malformed trailing JSON
aborts only that item and processing of all other lines continues.  On the
producer there is no try/except around `json.loads`: a run over one chunk
whose first line is malformed and whose second line qualifies aborts with the
decode error — the second line is never processed and nothing is published. -/
theorem producer_malformed_json_aborts_run_cex :
    processIndex [[RawLine.content .malformedJson,
                   RawLine.content (.parsed "u" "t" ⟨some ["eng"], some "200"⟩)]] 50 =
      .error .jsonDecodeError := by
  rfl

/-- C3 amended: on the consumer side a decode error in one item's bytes
aborts only that item — every other item's documents are still saved and the
batch is still acknowledged once — while on the producer side a line whose
trailing metadata is malformed JSON aborts the whole `process_index` run. -/
theorem decode_error_isolation_amended :
    (∀ (ex : Bytes → Option String) (en : String → List Nat)
        (pre post : List (Item × ItemOutcome)) (bad : Item × ItemOutcome),
        (∃ e : PyError, bad.2 = .fetchFail e ∨
          ∃ d : ItemData, bad.2 = .fetchOk d ∧ d.trailingError = some e) →
        (processBatch ex en (pre ++ bad :: post)).saved =
            (pre.map (itemSaves ex en)).flatten ++ itemSaves ex en bad ++
              (post.map (itemSaves ex en)).flatten ∧
          (processBatch ex en (pre ++ bad :: post)).acks = 1) ∧
    (∀ (chunks : List (List RawLine)) (bs : Nat),
        (∃ chunk ∈ chunks, RawLine.content .malformedJson ∈ chunk) →
        ∃ e, processIndex chunks bs = .error e) := by
  constructor
  · intro ex en pre post bad _
    obtain ⟨hs, ha⟩ := processBatch_saved_acks ex en (pre ++ bad :: post)
    refine ⟨?_, ha⟩
    rw [hs]
    simp [List.flatten_append, List.append_assoc]
  · intro chunks bs h
    exact processIndex_error_of_malformed h

/-- Witness for C3: a two-item batch whose second item's fetch raises still
saves the first item's contribution and acknowledges once, and a one-chunk
index holding a malformed line errors out. -/
theorem decode_error_isolation_amended_witness :
    ((processBatch exNone enNil ([itemA] ++ itemBad :: [])).saved =
        ([itemA].map (itemSaves exNone enNil)).flatten ++ itemSaves exNone enNil itemBad ++
          (([] : List (Item × ItemOutcome)).map (itemSaves exNone enNil)).flatten ∧
      (processBatch exNone enNil ([itemA] ++ itemBad :: [])).acks = 1) ∧
    (∃ e, processIndex [[RawLine.content .malformedJson]] 50 = .error e) :=
  ⟨decode_error_isolation_amended.1 exNone enNil [itemA] [] itemBad
      ⟨.decodeError, Or.inl rfl⟩,
   decode_error_isolation_amended.2 [[RawLine.content .malformedJson]] 50
      ⟨[RawLine.content .malformedJson], by simp, by simp⟩⟩

/-- C4 counterexample: the claim says any two saves within the same UTC day
produce distinct keys.  Two `save` calls during the same observed millisecond
(sub-millisecond spacing) build the very same key, so the second
`put_object` overwrites the first instead of creating a new object. -/
theorem saveKey_same_millisecond_collision_cex :
    ¬ (saveKey ⟨"2026-10-12", 1760227200123⟩ ≠ saveKey ⟨"2026-10-12", 1760227200123⟩) :=
  fun h => h rfl

/-- C4 amended: two saves within the same UTC day whose observed millisecond
ticks differ produce distinct keys that agree on the date component, and each
key's date component equals the UTC date observed at that call. -/
theorem saveKey_distinct_within_day_amended (d : String) (t1 t2 : Nat)
    (hslash : '/' ∉ d.data) (hne : t1 ≠ t2) :
    saveKey ⟨d, t1⟩ ≠ saveKey ⟨d, t2⟩ ∧
      keyDate (saveKey ⟨d, t1⟩) = d ∧ keyDate (saveKey ⟨d, t2⟩) = d :=
  ⟨saveKey_injective_ticks d t1 t2 hne,
   keyDate_saveKey ⟨d, t1⟩ hslash, keyDate_saveKey ⟨d, t2⟩ hslash⟩

/-- Witness for C4 at two saves one millisecond apart on the same day. -/
theorem saveKey_distinct_within_day_amended_witness :
    saveKey ⟨"2026-10-12", 1000⟩ ≠ saveKey ⟨"2026-10-12", 1001⟩ ∧
      keyDate (saveKey ⟨"2026-10-12", 1000⟩) = "2026-10-12" ∧
      keyDate (saveKey ⟨"2026-10-12", 1001⟩) = "2026-10-12" :=
  saveKey_distinct_within_day_amended "2026-10-12" 1000 1001 (by decide) (by decide)

/-- C9: the worker's length-band check accepts exactly the texts of length
between 500 and 1,000,000 inclusive, treats missing text as invalid, rejects
the boundary lengths 499 and 1,000,001 and accepts 500 and 1,000,000. -/
theorem worker_length_band_filter :
    (∀ t : String, isValidDoc (some t) = true ↔ 500 ≤ t.length ∧ t.length ≤ 1000000) ∧
    isValidDoc none = false ∧
    isValidDoc (some (String.mk (List.replicate 499 'a'))) = false ∧
    isValidDoc (some (String.mk (List.replicate 500 'a'))) = true ∧
    isValidDoc (some (String.mk (List.replicate 1000000 'a'))) = true ∧
    isValidDoc (some (String.mk (List.replicate 1000001 'a'))) = false := by
  have hiff : ∀ t : String, isValidDoc (some t) = true ↔ 500 ≤ t.length ∧ t.length ≤ 1000000 := by
    intro t
    simp [isValidDoc]
  refine ⟨hiff, rfl, ?_, ?_, ?_, ?_⟩
  · have h := hiff (String.mk (List.replicate 499 'a'))
    rw [length_mkReplicate] at h
    cases hb : isValidDoc (some (String.mk (List.replicate 499 'a')))
    · rfl
    · have := h.mp hb
      omega
  · have h := hiff (String.mk (List.replicate 500 'a'))
    rw [length_mkReplicate] at h
    exact h.mpr (by omega)
  · have h := hiff (String.mk (List.replicate 1000000 'a'))
    rw [length_mkReplicate] at h
    exact h.mpr (by omega)
  · have h := hiff (String.mk (List.replicate 1000001 'a'))
    rw [length_mkReplicate] at h
    cases hb : isValidDoc (some (String.mk (List.replicate 1000001 'a')))
    · rfl
    · have := h.mp hb
      omega
